import Mathlib

/-!
Verification of the answer-matching core of GeoQuiz ("Geo Genius").

The embedded code is `src/App.tsx`:
  * `levenshteinDistance` (lines 6-30): a dynamic-programming table
    `dp[i][j]` over prefixes of the two strings, with insertions,
    deletions and substitutions each of cost 1.
  * `normalize` (line 174): lower-case, strip a fixed punctuation set,
    collapse whitespace runs to a single space, trim.
  * the matcher inside `handleAnswerSubmit` (lines 170-183): exact match
    against any accepted entry, else a "very close" match when some
    accepted entry is within edit distance 2 and longer than 3 characters.

Strings are modelled as `List Char`. JS `String.prototype.toLowerCase`
is modelled on its ASCII fragment by `Char.toLower` (all inputs the
claims touch are ASCII).
-/

namespace GeoQuiz

/-- The characters removed by `normalize`'s first `replace`: the regex
character class in the source reads `. , / # ! $ % ^ & * ; : { } = - _
backtick ~ ( )`. -/
def isStrippedPunct (c : Char) : Bool :=
  c = '.' || c = ',' || c = '/' || c = '#' || c = '!' || c = '$' ||
  c = '%' || c = '^' || c = '&' || c = '*' || c = ';' || c = ':' ||
  c = '\x7b' || c = '\x7d' || c = '=' || c = '-' || c = '_' ||
  c = '\x60' || c = '~' || c = '(' || c = ')'

/-- The whitespace class of the JS regex `\s` (also the character set
trimmed by `String.prototype.trim`). -/
def isJsWhitespace (c : Char) : Bool :=
  c = ' ' || c = '\t' || c = '\n' || c = '\x0b' || c = '\x0c' ||
  c = '\r' || c = '\u00A0' || c = '\u1680' ||
  ('\u2000' ≤ c && c ≤ '\u200A') || c = '\u2028' || c = '\u2029' ||
  c = '\u202F' || c = '\u205F' || c = '\u3000' || c = '\uFEFF'

/-- Model of `.replace(/[.,\/#!$%^&*;:{}=\-_`~()]/g, "")`: a global
single-character-class replacement with the empty string removes exactly
the matching characters. -/
def stripPunct (s : List Char) : List Char :=
  s.filter (fun c => !isStrippedPunct c)

/-- Model of `.replace(/\s+/g, ' ')`: scan left to right; the first
character of each maximal whitespace run is replaced by `' '` and the
rest of the run is dropped. `prevWs` records whether the previous
character was part of a whitespace run still being consumed. -/
def collapseWsAux (prevWs : Bool) : List Char → List Char
  | [] => []
  | c :: cs =>
    if isJsWhitespace c then
      if prevWs then collapseWsAux true cs else ' ' :: collapseWsAux true cs
    else c :: collapseWsAux false cs

/-- Model of `.replace(/\s+/g, ' ')` (entry point of `collapseWsAux`). -/
def collapseWs (s : List Char) : List Char :=
  collapseWsAux false s

/-- Model of `String.prototype.trim`: drop leading whitespace, then drop
trailing whitespace (implemented by reversing). -/
def trimWs (s : List Char) : List Char :=
  (((s.dropWhile isJsWhitespace).reverse.dropWhile isJsWhitespace)).reverse

/-- `normalize` from `App.tsx` line 174:
`str.toLowerCase().replace(/[.,\/#!$%^&*;:{}=\-_`~()]/g,"").replace(/\s+/g, ' ').trim()`. -/
def normalize (s : List Char) : List Char :=
  trimWs (collapseWs (stripPunct (s.map Char.toLower)))

/-- One row-building step of the `levenshteinDistance` DP table
(`App.tsx` lines 18-27): given row `i` of the table as `prev`, compute
entry `j` of row `i + 1`.  `dp[i+1][0] = i+1` is the first-column
initialisation; otherwise
`dp[i+1][j+1] = min(dp[i][j+1] + 1, dp[i+1][j] + 1, dp[i][j] + cost)`
with `cost = 0` iff `a[i] === b[j]`. -/
def dpRowStep (a b : List Char) (i : Nat) (prev : Nat → Nat) : Nat → Nat
  | 0 => i + 1
  | j + 1 =>
    min (prev (j + 1) + 1)
      (min (dpRowStep a b i prev j + 1)
        (prev j + (if a[i]? = b[j]? then 0 else 1)))

/-- Row `i` of the `levenshteinDistance` DP table as a function of the
column: `dpRow a b i j = dp[i][j]`. Row 0 is `dp[0][j] = j`. -/
def dpRow (a b : List Char) : Nat → Nat → Nat
  | 0 => fun j => j
  | i + 1 => dpRowStep a b i (dpRow a b i)

/-- `levenshteinDistance` from `App.tsx` lines 6-30: the DP table's
bottom-right entry `dp[m][n]`. -/
def levenshteinDistance (a b : List Char) : Nat :=
  dpRow a b a.length b.length

/-- The answer matcher of `handleAnswerSubmit` (`App.tsx` lines 174-183),
as the pure function `(candidate, accepted) ↦ (correct, closeMatch)`:

    const normalizedUserAnswer = normalize(userAnswer);
    const normalizedCorrectAnswers = correctAnswers.map(normalize);
    const perfectMatch = normalizedCorrectAnswers.includes(normalizedUserAnswer);
    const isVeryClose = !perfectMatch && normalizedCorrectAnswers.some(
        ans => levenshteinDistance(normalizedUserAnswer, ans) <= 2 && ans.length > 3);
    const correct = perfectMatch || isVeryClose;
    setIsCorrect(correct); setSpellingMistake(correct && !perfectMatch);
-/
def evaluate (candidate : List Char) (accepted : List (List Char)) : Bool × Bool :=
  let normalizedUserAnswer := normalize candidate
  let normalizedCorrectAnswers := accepted.map normalize
  let perfectMatch := normalizedCorrectAnswers.contains normalizedUserAnswer
  let isVeryClose := !perfectMatch && normalizedCorrectAnswers.any
    (fun ans => decide (levenshteinDistance normalizedUserAnswer ans ≤ 2) &&
      decide (ans.length > 3))
  let correct := perfectMatch || isVeryClose
  (correct, correct && !perfectMatch)

/-! ### Definitions taken from the specification's wording

The spec describes `normalize` as "lower-case, strip a fixed punctuation
set, collapse runs of whitespace to a single space, trim leading/trailing
whitespace, in that order".  The following definitions render that
wording directly, to be compared with the source-derived `normalize`. -/

/-- The punctuation characters the spec lists:
`. , / # ! $ % ^ & * ; : { } = - _ backtick ~ ( )`. -/
def specPunctuation : List Char :=
  ['.', ',', '/', '#', '!', '$', '%', '^', '&', '*', ';', ':',
   '\x7b', '\x7d', '=', '-', '_', '\x60', '~', '(', ')']

/-- Spec wording: "lower-case". -/
def lowercaseSpec (s : List Char) : List Char :=
  s.map Char.toLower

/-- Spec wording: "removing every occurrence of exactly the punctuation
characters" in `specPunctuation`. -/
def removePunctuationSpec (s : List Char) : List Char :=
  s.filter (fun c => !(specPunctuation.contains c))

/-- Spec wording: "collapsing each run of whitespace to a single space".
This rendering looks one character ahead: inside a run it drops the
character, and at the end of a run it emits a single `' '`. -/
def collapseRunsSpec : List Char → List Char
  | [] => []
  | [c] => if isJsWhitespace c then [' '] else [c]
  | c :: d :: cs =>
    if isJsWhitespace c && isJsWhitespace d then collapseRunsSpec (d :: cs)
    else (if isJsWhitespace c then ' ' else c) :: collapseRunsSpec (d :: cs)

/-- Spec wording: "trimming leading and trailing whitespace". -/
def trimSpec (s : List Char) : List Char :=
  ((s.dropWhile isJsWhitespace).reverse.dropWhile isJsWhitespace).reverse

/-- No two adjacent characters are both whitespace (an invariant of
`collapseWs` output used to prove idempotence of `normalize`). -/
def NoAdjacentWs (l : List Char) : Prop :=
  List.Chain' (fun a b => ¬(isJsWhitespace a = true ∧ isJsWhitespace b = true)) l

/-! ### Reference definitions for edit distance

The spec's glossary defines the Levenshtein distance as "minimum number
of single-character insertions, deletions, substitutions to transform
one string into another".  `EditStep` and `StepN` render that wording;
`Aligns` and Mathlib's `levenshtein` are proof devices connecting the
DP table to that minimum. -/

/-- Unit cost structure over characters: insertions and deletions cost 1
and a substitution costs 1 unless the characters agree. -/
def unitCost : Levenshtein.Cost Char Char Nat where
  delete _ := 1
  insert _ := 1
  substitute a b := if a = b then 0 else 1

/-- A single edit: insert, delete or substitute one character at any
position of the string. -/
inductive EditStep : List Char → List Char → Prop where
  | ins (u v : List Char) (c : Char) : EditStep (u ++ v) (u ++ c :: v)
  | del (u v : List Char) (c : Char) : EditStep (u ++ c :: v) (u ++ v)
  | sub (u v : List Char) (c d : Char) : EditStep (u ++ c :: v) (u ++ d :: v)

/-- `StepN n a b`: `a` can be transformed into `b` by a sequence of `n`
single edits. -/
inductive StepN : Nat → List Char → List Char → Prop where
  | refl (a : List Char) : StepN 0 a a
  | head {n : Nat} {a b c : List Char} : EditStep a b → StepN n b c → StepN (n + 1) a c

/-- `Aligns n a b`: a left-to-right alignment of `a` with `b` using `n`
paid operations (kept characters are free). -/
inductive Aligns : Nat → List Char → List Char → Prop where
  | nil : Aligns 0 [] []
  | keep (c : Char) {n : Nat} {a b : List Char} : Aligns n a b → Aligns n (c :: a) (c :: b)
  | del (c : Char) {n : Nat} {a b : List Char} : Aligns n a b → Aligns (n + 1) (c :: a) b
  | ins (c : Char) {n : Nat} {a b : List Char} : Aligns n a b → Aligns (n + 1) a (c :: b)
  | sub (c d : Char) {n : Nat} {a b : List Char} : Aligns n a b → Aligns (n + 1) (c :: a) (d :: b)

/-! ### Basic unfolding lemmas for the matcher -/

/-- `evaluate` written without `let` bindings, for rewriting. -/
theorem evaluate_eq (c : List Char) (acc : List (List Char)) :
    evaluate c acc =
      (((acc.map normalize).contains (normalize c) ||
          (!(acc.map normalize).contains (normalize c) && (acc.map normalize).any
            (fun ans => decide (levenshteinDistance (normalize c) ans ≤ 2) &&
              decide (ans.length > 3)))),
        ((acc.map normalize).contains (normalize c) ||
          (!(acc.map normalize).contains (normalize c) && (acc.map normalize).any
            (fun ans => decide (levenshteinDistance (normalize c) ans ≤ 2) &&
              decide (ans.length > 3)))) &&
          !(acc.map normalize).contains (normalize c)) := rfl

/-- The code's `perfectMatch` Boolean holds iff some accepted entry
normalizes to the normalized candidate. -/
theorem perfectMatch_iff (c : List Char) (accepted : List (List Char)) :
    ((accepted.map normalize).contains (normalize c) = true) ↔
      ∃ a ∈ accepted, normalize c = normalize a := by
  rw [List.contains, List.elem_iff, List.mem_map]
  constructor
  · rintro ⟨a, ha, hn⟩; exact ⟨a, ha, hn.symm⟩
  · rintro ⟨a, ha, hn⟩; exact ⟨a, ha, hn.symm⟩

/-- The `some`-clause of the code's `isVeryClose` Boolean holds iff some
accepted entry is within edit distance 2 and has normalized length
greater than 3. -/
theorem closeClause_iff (c : List Char) (accepted : List (List Char)) :
    ((accepted.map normalize).any
        (fun ans => decide (levenshteinDistance (normalize c) ans ≤ 2) &&
          decide (ans.length > 3)) = true) ↔
      ∃ a ∈ accepted, levenshteinDistance (normalize c) (normalize a) ≤ 2 ∧
        3 < (normalize a).length := by
  rw [List.any_eq_true]
  constructor
  · rintro ⟨x, hx, hpx⟩
    obtain ⟨a, ha, rfl⟩ := List.mem_map.mp hx
    simp only [Bool.and_eq_true, decide_eq_true_eq] at hpx
    exact ⟨a, ha, hpx⟩
  · rintro ⟨a, ha, h1, h2⟩
    refine ⟨normalize a, List.mem_map.mpr ⟨a, ha, rfl⟩, ?_⟩
    simp only [Bool.and_eq_true, decide_eq_true_eq]
    exact ⟨h1, h2⟩

/-! ### The claims about the matcher's Boolean structure -/

/-- C1: for every candidate and every non-empty accepted sequence, the
matcher returns `correct = exact OR close` and
`closeMatch = correct AND NOT exact`, where `exact` holds iff the
normalized candidate equals the normalized form of some accepted entry
and `close` holds iff `exact` fails and some accepted entry is within
Levenshtein distance 2 of the normalized candidate with normalized
length greater than 3. -/
theorem matcher_result_characterization (candidate : List Char)
    (accepted : List (List Char)) (h : accepted ≠ []) :
    ((evaluate candidate accepted).1 = true ↔
      ((∃ a ∈ accepted, normalize candidate = normalize a) ∨
        (¬(∃ a ∈ accepted, normalize candidate = normalize a) ∧
          ∃ a ∈ accepted, levenshteinDistance (normalize candidate) (normalize a) ≤ 2 ∧
            3 < (normalize a).length))) ∧
    ((evaluate candidate accepted).2 = true ↔
      (((∃ a ∈ accepted, normalize candidate = normalize a) ∨
        (¬(∃ a ∈ accepted, normalize candidate = normalize a) ∧
          ∃ a ∈ accepted, levenshteinDistance (normalize candidate) (normalize a) ≤ 2 ∧
            3 < (normalize a).length)) ∧
        ¬(∃ a ∈ accepted, normalize candidate = normalize a))) := by
  unfold evaluate
  simp only [Prod.fst, Prod.snd]
  rw [← perfectMatch_iff candidate accepted, ← closeClause_iff candidate accepted]
  cases hpm : (accepted.map normalize).contains (normalize candidate) <;>
    cases hcl : (accepted.map normalize).any
        (fun ans => decide (levenshteinDistance (normalize candidate) ans ≤ 2) &&
          decide (ans.length > 3)) <;>
      simp [hpm, hcl]

/-- C1 witness: the characterization instantiated at a concrete input. -/
theorem matcher_result_characterization_witness :
    ((evaluate ['a'] [['a']]).1 = true ↔
      ((∃ x ∈ [['a']], normalize ['a'] = normalize x) ∨
        (¬(∃ x ∈ [['a']], normalize ['a'] = normalize x) ∧
          ∃ x ∈ [['a']], levenshteinDistance (normalize ['a']) (normalize x) ≤ 2 ∧
            3 < (normalize x).length))) ∧
    ((evaluate ['a'] [['a']]).2 = true ↔
      (((∃ x ∈ [['a']], normalize ['a'] = normalize x) ∨
        (¬(∃ x ∈ [['a']], normalize ['a'] = normalize x) ∧
          ∃ x ∈ [['a']], levenshteinDistance (normalize ['a']) (normalize x) ≤ 2 ∧
            3 < (normalize x).length)) ∧
        ¬(∃ x ∈ [['a']], normalize ['a'] = normalize x))) :=
  matcher_result_characterization ['a'] [['a']] (by decide)

/-- C5: a 2-character normalized candidate can close-match a 4-character
accepted answer at distance exactly 2: the `length > 3` guard does not
prevent it. Witnessed by candidate `"ol"` against accepted `"Oslo"`. -/
theorem short_candidate_close_match_exists :
    ∃ (candidate accepted : List Char),
      (normalize candidate).length = 2 ∧ (normalize accepted).length = 4 ∧
      levenshteinDistance (normalize candidate) (normalize accepted) = 2 ∧
      evaluate candidate [accepted] = (true, true) := by
  refine ⟨"ol".toList, "Oslo".toList, ?_, ?_, ?_, ?_⟩ <;> decide

/-- C6: an exact match with any accepted entry yields
`(correct, closeMatch) = (true, false)` regardless of the entry's
position or normalized length; in particular `evaluate "Us" ["US"]` and
`evaluate "France" ["France", "Francia"]` both return `(true, false)`. -/
theorem exact_match_suffices :
    (∀ (candidate : List Char) (accepted : List (List Char)),
      (∃ a ∈ accepted, normalize candidate = normalize a) →
        evaluate candidate accepted = (true, false)) ∧
    evaluate "Us".toList ["US".toList] = (true, false) ∧
    evaluate "France".toList ["France".toList, "Francia".toList] = (true, false) := by
  refine ⟨?_, by decide, by decide⟩
  intro candidate accepted hex
  have hpm : (accepted.map normalize).contains (normalize candidate) = true := by
    obtain ⟨a, ha, hn⟩ := hex
    rw [List.contains, List.elem_iff, List.mem_map]
    exact ⟨a, ha, hn.symm⟩
  rw [evaluate_eq, hpm]
  simp

/-- C7: misspellings within distance 2 of an accepted entry longer than
3 characters are accepted as close matches: `evaluate "Pari" ["Paris"]`
and `evaluate "Parris" ["Paris"]` both return `(true, true)`. -/
theorem misspelling_close_match_examples :
    evaluate "Pari".toList ["Paris".toList] = (true, true) ∧
    evaluate "Parris".toList ["Paris".toList] = (true, true) := by
  constructor <;> decide

/-- C8: reflexivity: when the normalized candidate is non-empty,
`evaluate s [s]` returns `(true, false)` (an exact match). -/
theorem evaluate_reflexive (s : List Char) (h : normalize s ≠ []) :
    evaluate s [s] = (true, false) := by
  have hpm : (([s]).map normalize).contains (normalize s) = true := by
    rw [List.contains, List.elem_iff]; simp
  rw [evaluate_eq, hpm]
  simp

/-- C8 witness: reflexivity at the concrete input `"Paris"`. -/
theorem evaluate_reflexive_witness :
    evaluate "Paris".toList ["Paris".toList] = (true, false) :=
  evaluate_reflexive "Paris".toList (by decide)

/-- C9: a candidate that normalizes to the empty string never matches
when every accepted entry normalizes to a non-empty string: exact match
fails, and the close branch is unreachable because the distance from the
empty string to an entry is that entry's length, which would have to
exceed 3 (guard) yet be at most 2. -/
theorem empty_candidate_no_match (candidate : List Char)
    (accepted : List (List Char)) (h0 : normalize candidate = [])
    (h1 : ∀ a ∈ accepted, normalize a ≠ []) :
    evaluate candidate accepted = (false, false) := by
  have hpm : (accepted.map normalize).contains (normalize candidate) = false := by
    rw [List.contains, Bool.eq_false_iff]
    intro hc
    obtain ⟨a, ha, hn⟩ := List.mem_map.mp (List.elem_iff.mp hc)
    exact h1 a ha (hn.trans h0)
  have hany : (accepted.map normalize).any
      (fun ans => decide (levenshteinDistance (normalize candidate) ans ≤ 2) &&
        decide (ans.length > 3)) = false := by
    rw [Bool.eq_false_iff]
    intro hc
    obtain ⟨x, hx, hpx⟩ := List.any_eq_true.mp hc
    simp only [Bool.and_eq_true, decide_eq_true_eq] at hpx
    rw [h0] at hpx
    have hlen : levenshteinDistance [] x = x.length := rfl
    omega
  rw [evaluate_eq, hpm, hany]
  simp

/-- C9 witness: the candidate `"()"` normalizes to the empty string and
does not match the accepted entry `"Paris"`. -/
theorem empty_candidate_no_match_witness :
    evaluate "()".toList ["Paris".toList] = (false, false) :=
  empty_candidate_no_match "()".toList ["Paris".toList] (by decide) (by decide)

/-- C10: the matcher is deterministic: evaluations at equal inputs give
equal `(correct, closeMatch)` pairs (the embedding is a pure function of
its two arguments). -/
theorem evaluate_deterministic (c₁ c₂ : List Char) (a₁ a₂ : List (List Char))
    (hc : c₁ = c₂) (ha : a₁ = a₂) :
    evaluate c₁ a₁ = evaluate c₂ a₂ := by
  rw [hc, ha]

/-- C10 witness: determinism instantiated at a concrete input. -/
theorem evaluate_deterministic_witness :
    evaluate "Us".toList ["US".toList] = evaluate "Us".toList ["US".toList] :=
  evaluate_deterministic "Us".toList "Us".toList ["US".toList] ["US".toList] rfl rfl

/-! ### The normalization pipeline refines the spec's wording (C3) -/

/-- The source's regex character class and the spec's punctuation list
agree character by character. -/
theorem punct_classes_agree (c : Char) :
    isStrippedPunct c = specPunctuation.contains c := by
  rw [Bool.eq_iff_iff]
  simp only [isStrippedPunct, specPunctuation, List.contains_cons, List.contains_nil,
    Bool.or_eq_true, decide_eq_true_eq, beq_iff_eq, Bool.false_eq_true, or_false,
    or_assoc]

/-- Unfolding `collapseRunsSpec` at a non-whitespace head. -/
theorem collapseRunsSpec_cons_not_ws (c : Char) (cs : List Char)
    (hw : isJsWhitespace c = false) :
    collapseRunsSpec (c :: cs) = c :: collapseRunsSpec cs := by
  cases cs with
  | nil => simp [collapseRunsSpec, hw]
  | cons d ds => simp [collapseRunsSpec, hw]

/-- Unfolding `collapseRunsSpec` at a whitespace head: the whole run is
consumed and replaced by one `' '`. -/
theorem collapseRunsSpec_cons_ws (c : Char) (cs : List Char)
    (hw : isJsWhitespace c = true) :
    collapseRunsSpec (c :: cs) = ' ' :: collapseRunsSpec (cs.dropWhile isJsWhitespace) := by
  induction cs generalizing c with
  | nil => simp [collapseRunsSpec, hw]
  | cons d ds ih =>
    cases hd : isJsWhitespace d with
    | true =>
      rw [List.dropWhile_cons_of_pos hd]
      rw [show collapseRunsSpec (c :: d :: ds) = collapseRunsSpec (d :: ds) by
        simp [collapseRunsSpec, hw, hd]]
      exact ih d hd
    | false =>
      rw [List.dropWhile_cons_of_neg (by simp [hd])]
      simp [collapseRunsSpec, hw, hd]

/-- The source's left-to-right whitespace collapsing agrees with the
spec's run-by-run description. -/
theorem collapseWsAux_eq_spec (s : List Char) :
    collapseWsAux true s = collapseRunsSpec (s.dropWhile isJsWhitespace) ∧
    collapseWsAux false s = collapseRunsSpec s := by
  induction s with
  | nil => exact ⟨rfl, rfl⟩
  | cons c cs ih =>
    cases hw : isJsWhitespace c with
    | true =>
      constructor
      · rw [List.dropWhile_cons_of_pos hw]
        simp only [collapseWsAux, hw, if_true]
        exact ih.1
      · simp only [collapseWsAux, hw, Bool.false_eq_true, if_false, if_true]
        rw [collapseRunsSpec_cons_ws c cs hw, ih.1]
    | false =>
      constructor
      · rw [List.dropWhile_cons_of_neg (by simp [hw])]
        simp only [collapseWsAux, hw, Bool.false_eq_true, if_false]
        rw [collapseRunsSpec_cons_not_ws c cs hw, ih.2]
      · simp only [collapseWsAux, hw, Bool.false_eq_true, if_false]
        rw [collapseRunsSpec_cons_not_ws c cs hw, ih.2]

/-- C3: `normalize` equals the spec's pipeline — lower-case, remove
exactly the listed punctuation characters, collapse each whitespace run
to a single space, then trim — applied in that order. -/
theorem normalize_matches_spec_pipeline (s : List Char) :
    normalize s =
      trimSpec (collapseRunsSpec (removePunctuationSpec (lowercaseSpec s))) := by
  have hp : stripPunct (s.map Char.toLower) = removePunctuationSpec (lowercaseSpec s) := by
    unfold stripPunct removePunctuationSpec lowercaseSpec
    apply List.filter_congr
    intro a _
    rw [punct_classes_agree]
  unfold normalize collapseWs
  rw [hp, (collapseWsAux_eq_spec _).2]
  rfl

/-! ### Idempotence of normalization (C4) -/

/-- `Char.toLower` is idempotent. -/
theorem char_toLower_idem (c : Char) :
    Char.toLower (Char.toLower c) = Char.toLower c := by
  unfold Char.toLower
  by_cases h : c.toNat ≥ 65 ∧ c.toNat ≤ 90
  · rw [if_pos h]
    have hv : (c.toNat + 32).isValidChar := by left; omega
    have ht : (Char.ofNat (c.toNat + 32)).toNat = c.toNat + 32 := by
      rw [Char.ofNat, dif_pos hv]; rfl
    rw [ht, if_neg (by omega)]
  · rw [if_neg h, if_neg h]

/-- Membership in the output of `collapseWsAux`: a character is either
the inserted `' '` or a non-whitespace character of the input. -/
theorem mem_collapseWsAux (flag : Bool) (l : List Char) (c : Char)
    (h : c ∈ collapseWsAux flag l) :
    c = ' ' ∨ (c ∈ l ∧ isJsWhitespace c = false) := by
  induction l generalizing flag with
  | nil => simp [collapseWsAux] at h
  | cons a as ih =>
    by_cases hw : isJsWhitespace a
    · cases flag with
      | true =>
        simp only [collapseWsAux, hw, if_true] at h
        rcases ih true h with h1 | ⟨h2, h3⟩
        · exact Or.inl h1
        · exact Or.inr ⟨List.mem_cons_of_mem a h2, h3⟩
      | false =>
        simp only [collapseWsAux, hw, Bool.false_eq_true, if_false, if_true,
          List.mem_cons] at h
        rcases h with h1 | h1
        · exact Or.inl h1
        · rcases ih true h1 with h2 | ⟨h2, h3⟩
          · exact Or.inl h2
          · exact Or.inr ⟨List.mem_cons_of_mem a h2, h3⟩
    · simp only [collapseWsAux, hw, Bool.false_eq_true, if_false, List.mem_cons] at h
      rcases h with h1 | h1
      · subst h1
        exact Or.inr ⟨List.mem_cons_self c as, by simpa using hw⟩
      · rcases ih false h1 with h2 | ⟨h2, h3⟩
        · exact Or.inl h2
        · exact Or.inr ⟨List.mem_cons_of_mem a h2, h3⟩

/-- Trimming only removes characters. -/
theorem mem_trimWs (l : List Char) (c : Char) (h : c ∈ trimWs l) : c ∈ l := by
  unfold trimWs at h
  rw [List.mem_reverse] at h
  have h1 := (List.dropWhile_suffix isJsWhitespace).sublist.mem h
  rw [List.mem_reverse] at h1
  exact (List.dropWhile_suffix isJsWhitespace).sublist.mem h1

/-- `collapseWsAux` output never has two adjacent whitespace characters,
and with `prevWs = true` it never starts with whitespace. -/
theorem collapseWsAux_chain (l : List Char) :
    (NoAdjacentWs (collapseWsAux true l) ∧
      ∀ c ∈ (collapseWsAux true l).head?, isJsWhitespace c = false) ∧
    NoAdjacentWs (collapseWsAux false l) := by
  induction l with
  | nil => refine ⟨⟨List.chain'_nil, ?_⟩, List.chain'_nil⟩; simp [collapseWsAux]
  | cons a as ih =>
    by_cases hw : isJsWhitespace a
    · refine ⟨⟨?_, ?_⟩, ?_⟩
      · simp only [collapseWsAux, hw, if_true]
        exact ih.1.1
      · simp only [collapseWsAux, hw, if_true]
        exact ih.1.2
      · simp only [collapseWsAux, hw, Bool.false_eq_true, if_false, if_true]
        rw [NoAdjacentWs, List.chain'_cons']
        refine ⟨?_, ih.1.1⟩
        intro y hy
        have := ih.1.2 y hy
        simp [this]
    · have hw' : isJsWhitespace a = false := by simpa using hw
      refine ⟨⟨?_, ?_⟩, ?_⟩
      · simp only [collapseWsAux, hw, Bool.false_eq_true, if_false]
        rw [NoAdjacentWs, List.chain'_cons']
        refine ⟨?_, ih.2⟩
        intro y hy
        simp [hw']
      · simp only [collapseWsAux, hw, Bool.false_eq_true, if_false]
        intro c hc
        simp only [List.head?_cons, Option.mem_some_iff] at hc
        rw [← hc]; exact hw'
      · simp only [collapseWsAux, hw, Bool.false_eq_true, if_false]
        rw [NoAdjacentWs, List.chain'_cons']
        refine ⟨?_, ih.2⟩
        intro y hy
        simp [hw']

/-- The head of `dropWhile p l` does not satisfy `p`. -/
theorem head_dropWhile_false (p : Char → Bool) (l : List Char) :
    ∀ c ∈ (l.dropWhile p).head?, p c = false := by
  induction l with
  | nil => simp
  | cons a as ih =>
    by_cases hp : p a
    · rw [List.dropWhile_cons_of_pos hp]; exact ih
    · rw [List.dropWhile_cons_of_neg hp]
      intro c hc
      simp only [List.head?_cons, Option.mem_some_iff] at hc
      rw [← hc]; simpa using hp

/-- Trimming preserves the no-adjacent-whitespace invariant. -/
theorem trimWs_chain (l : List Char) (h : NoAdjacentWs l) : NoAdjacentWs (trimWs l) := by
  unfold trimWs
  rw [NoAdjacentWs, List.chain'_reverse]
  have h1 : NoAdjacentWs (l.dropWhile isJsWhitespace) :=
    h.suffix (List.dropWhile_suffix _)
  have h2 : List.Chain' (flip fun a b => ¬(isJsWhitespace a = true ∧ isJsWhitespace b = true))
      (l.dropWhile isJsWhitespace).reverse := by
    rw [List.chain'_reverse]
    apply h1.imp
    intro a b hab
    simp only [flip]
    tauto
  have h3 := h2.suffix (List.dropWhile_suffix isJsWhitespace)
  apply h3.imp
  intro a b hab
  simp only [flip] at hab ⊢
  tauto

/-- The first character of a trimmed string is not whitespace. -/
theorem trimWs_head (l : List Char) :
    ∀ c ∈ (trimWs l).head?, isJsWhitespace c = false := by
  intro c hc
  unfold trimWs at hc
  rw [List.head?_reverse] at hc
  rcases hx : ((l.dropWhile isJsWhitespace).reverse.dropWhile isJsWhitespace) with _ | ⟨y, ys⟩
  · rw [hx] at hc; simp at hc
  · have hne : ((l.dropWhile isJsWhitespace).reverse.dropWhile isJsWhitespace) ≠ [] := by
      rw [hx]; simp
    obtain ⟨u, hu⟩ :=
      @List.dropWhile_suffix Char ((l.dropWhile isJsWhitespace).reverse) isJsWhitespace
    have hgl := List.getLast?_append_of_ne_nil u hne
    rw [hu] at hgl
    rw [← hgl, List.getLast?_reverse] at hc
    exact head_dropWhile_false isJsWhitespace l c hc

/-- The last character of a trimmed string is not whitespace. -/
theorem trimWs_last (l : List Char) :
    ∀ c ∈ (trimWs l).getLast?, isJsWhitespace c = false := by
  intro c hc
  unfold trimWs at hc
  rw [List.getLast?_reverse] at hc
  exact head_dropWhile_false isJsWhitespace _ c hc

/-- Mapping a function that fixes every element of a list fixes the list. -/
theorem map_toLower_fix (l : List Char) (h : ∀ c ∈ l, Char.toLower c = c) :
    l.map Char.toLower = l := by
  induction l with
  | nil => rfl
  | cons a as ih =>
    simp only [List.map_cons]
    rw [h a (List.mem_cons_self a as), ih (fun c hc => h c (List.mem_cons_of_mem a hc))]

/-- `dropWhile` fixes a list whose head does not satisfy the predicate. -/
theorem dropWhile_fix (p : Char → Bool) (l : List Char)
    (h : ∀ c ∈ l.head?, p c = false) : l.dropWhile p = l := by
  cases l with
  | nil => rfl
  | cons a as =>
    apply List.dropWhile_cons_of_neg
    have := h a (by simp)
    simp [this]

/-- Trimming fixes a string with no leading or trailing whitespace. -/
theorem trimWs_fix (l : List Char)
    (hh : ∀ c ∈ l.head?, isJsWhitespace c = false)
    (hl : ∀ c ∈ l.getLast?, isJsWhitespace c = false) : trimWs l = l := by
  unfold trimWs
  rw [dropWhile_fix _ _ hh]
  rw [dropWhile_fix _ _ (by rw [List.head?_reverse]; exact hl)]
  exact List.reverse_reverse l

/-- Collapsing fixes a string whose only whitespace is `' '` with no two
adjacent whitespace characters. -/
theorem collapseWsAux_fix (l : List Char)
    (hws : ∀ c ∈ l, isJsWhitespace c = true → c = ' ')
    (hch : NoAdjacentWs l) :
    collapseWsAux false l = l ∧
      ((∀ c ∈ l.head?, isJsWhitespace c = false) → collapseWsAux true l = l) := by
  induction l with
  | nil => exact ⟨rfl, fun _ => rfl⟩
  | cons a as ih =>
    have hws' : ∀ c ∈ as, isJsWhitespace c = true → c = ' ' :=
      fun c hc => hws c (List.mem_cons_of_mem a hc)
    have hch' : NoAdjacentWs as := hch.tail
    by_cases hw : isJsWhitespace a
    · have ha : a = ' ' := hws a (List.mem_cons_self a as) (by simpa using hw)
      have hhead : ∀ c ∈ as.head?, isJsWhitespace c = false := by
        intro c hc
        rw [NoAdjacentWs, List.chain'_cons'] at hch
        have := hch.1 c hc
        simp only [hw, true_and] at this
        cases hcc : isJsWhitespace c
        · rfl
        · simp [hw, hcc] at this
      constructor
      · simp only [collapseWsAux, hw, if_true, Bool.false_eq_true, if_false]
        rw [(ih hws' hch').2 hhead, ha]
      · intro hhd
        have := hhd a (by simp)
        rw [this] at hw
        simp at hw
    · have hw' : isJsWhitespace a = false := by simpa using hw
      constructor
      · simp only [collapseWsAux, hw, Bool.false_eq_true, if_false]
        rw [(ih hws' hch').1]
      · intro _
        simp only [collapseWsAux, hw, Bool.false_eq_true, if_false]
        rw [(ih hws' hch').1]

/-- A string satisfying all output invariants of `normalize` is a fixed
point of `normalize`. -/
theorem normalize_fix (l : List Char)
    (h1 : ∀ c ∈ l, Char.toLower c = c)
    (h2 : ∀ c ∈ l, isStrippedPunct c = false)
    (h3 : ∀ c ∈ l, isJsWhitespace c = true → c = ' ')
    (h4 : NoAdjacentWs l)
    (h5 : ∀ c ∈ l.head?, isJsWhitespace c = false)
    (h6 : ∀ c ∈ l.getLast?, isJsWhitespace c = false) :
    normalize l = l := by
  unfold normalize collapseWs stripPunct
  rw [map_toLower_fix l h1]
  rw [List.filter_eq_self.mpr (fun a ha => by simp [h2 a ha])]
  rw [(collapseWsAux_fix l h3 h4).1]
  exact trimWs_fix l h5 h6

/-- Characterwise invariants of `normalize` output: every character is
lower-case-fixed, not punctuation, and whitespace only as `' '`. -/
theorem normalize_char_invariants (s : List Char) :
    (∀ c ∈ normalize s, Char.toLower c = c) ∧
    (∀ c ∈ normalize s, isStrippedPunct c = false) ∧
    (∀ c ∈ normalize s, isJsWhitespace c = true → c = ' ') := by
  refine ⟨?_, ?_, ?_⟩ <;>
  · intro c hc
    have hy := mem_trimWs _ c hc
    rcases mem_collapseWsAux false _ c hy with rfl | ⟨hm, hws⟩
    · first
        | rfl
        | (intro _; rfl)
    · rw [stripPunct, List.mem_filter] at hm
      first
        | (obtain ⟨x, _, rfl⟩ := List.mem_map.mp hm.1
           exact char_toLower_idem x)
        | (have hq := hm.2; simp only [Bool.not_eq_true'] at hq; exact hq)
        | (intro hcc; rw [hws] at hcc; exact absurd hcc (by simp))

/-- Shape invariants of `normalize` output: no two adjacent whitespace
characters and no leading or trailing whitespace. -/
theorem normalize_shape_invariants (s : List Char) :
    NoAdjacentWs (normalize s) ∧
    (∀ c ∈ (normalize s).head?, isJsWhitespace c = false) ∧
    (∀ c ∈ (normalize s).getLast?, isJsWhitespace c = false) := by
  refine ⟨?_, trimWs_head _, trimWs_last _⟩
  exact trimWs_chain _ (collapseWsAux_chain (stripPunct (s.map Char.toLower))).2

/-- C4: normalization is idempotent: `normalize (normalize s) = normalize s`. -/
theorem normalize_idempotent (s : List Char) :
    normalize (normalize s) = normalize s :=
  normalize_fix _ (normalize_char_invariants s).1 (normalize_char_invariants s).2.1
    (normalize_char_invariants s).2.2 (normalize_shape_invariants s).1
    (normalize_shape_invariants s).2.1 (normalize_shape_invariants s).2.2

/-! ### The DP table computes the minimum number of edits (C2) -/

/-- Distance from the empty string: every character must be inserted. -/
theorem lev_nil_left (l : List Char) : levenshtein unitCost [] l = l.length := by
  induction l with
  | nil => simp [levenshtein_nil_nil]
  | cons c cs ih => rw [levenshtein_nil_cons, ih]; simp [unitCost]; omega

/-- Distance to the empty string: every character must be deleted. -/
theorem lev_nil_right (l : List Char) : levenshtein unitCost l [] = l.length := by
  induction l with
  | nil => simp [levenshtein_nil_nil]
  | cons c cs ih => rw [levenshtein_cons_nil, ih]; simp [unitCost]; omega

/-- The DP table entry `dp[i][j]` is the Levenshtein distance between
the reversals of the length-`i` and length-`j` prefixes (the recurrence
consumes the prefixes from their right ends). -/
theorem dpRow_eq_lev (a b : List Char) :
    ∀ i, i ≤ a.length → ∀ j, j ≤ b.length →
      dpRow a b i j = levenshtein unitCost ((a.take i).reverse) ((b.take j).reverse) := by
  intro i
  induction i with
  | zero =>
    intro _ j hj
    simp only [dpRow, List.take_zero, List.reverse_nil]
    rw [lev_nil_left]
    simp [List.length_take, Nat.min_eq_left hj]
  | succ i ih =>
    intro hi j
    induction j with
    | zero =>
      intro _
      rw [show dpRow a b (i+1) 0 = i + 1 from rfl]
      simp only [List.take_zero, List.reverse_nil]
      rw [lev_nil_right]
      simp [List.length_take, Nat.min_eq_left (show i + 1 ≤ a.length from hi)]
    | succ j ihj =>
      intro hj
      have hia : i < a.length := by omega
      have hjb : j < b.length := by omega
      have hstep : dpRow a b (i+1) (j+1) =
          min (dpRow a b i (j+1) + 1)
            (min (dpRow a b (i+1) j + 1)
              (dpRow a b i j + (if a[i]? = b[j]? then 0 else 1))) := rfl
      have hta : (a.take (i+1)).reverse = a[i] :: (a.take i).reverse := by
        rw [List.take_succ, List.getElem?_eq_getElem hia]
        simp
      have htb : (b.take (j+1)).reverse = b[j] :: (b.take j).reverse := by
        rw [List.take_succ, List.getElem?_eq_getElem hjb]
        simp
      have h1 := ih (by omega) (j+1) hj
      have h2 := ihj (by omega)
      have h3 := ih (by omega) j (by omega)
      rw [hstep, h1, h2, h3, hta, htb, levenshtein_cons_cons]
      have hopt : (a[i]? = b[j]?) ↔ (a[i] = b[j]) := by
        rw [List.getElem?_eq_getElem hia, List.getElem?_eq_getElem hjb]
        simp
      simp only [unitCost]
      by_cases hab : a[i] = b[j]
      · rw [if_pos (hopt.mpr hab), if_pos hab]
        omega
      · rw [if_neg (fun hc => hab (hopt.mp hc)), if_neg hab]
        omega

/-- `levenshteinDistance` agrees with the recursive Levenshtein distance
on the reversed strings. -/
theorem levenshteinDistance_eq_lev (a b : List Char) :
    levenshteinDistance a b = levenshtein unitCost a.reverse b.reverse := by
  have h := dpRow_eq_lev a b a.length le_rfl b.length le_rfl
  rw [List.take_length, List.take_length] at h
  exact h

/-- The empty alignment: a string aligns with itself at cost 0. -/
theorem aligns_refl (l : List Char) : Aligns 0 l l := by
  induction l with
  | nil => exact Aligns.nil
  | cons c cs ih => exact Aligns.keep c ih

/-- Building a string from nothing costs one insertion per character. -/
theorem aligns_nil_left (l : List Char) : Aligns l.length [] l := by
  induction l with
  | nil => exact Aligns.nil
  | cons c cs ih => exact Aligns.ins c ih

/-- Erasing a string costs one deletion per character. -/
theorem aligns_nil_right (l : List Char) : Aligns l.length l [] := by
  induction l with
  | nil => exact Aligns.nil
  | cons c cs ih => exact Aligns.del c ih

/-- Dropping the head costs at most one. -/
theorem lev_del_le (c : Char) (a b : List Char) :
    levenshtein unitCost (c :: a) b ≤ 1 + levenshtein unitCost a b := by
  cases b with
  | nil => rw [lev_nil_right, lev_nil_right]; simp; omega
  | cons y ys =>
    rw [levenshtein_cons_cons]
    calc _ ≤ unitCost.delete c + levenshtein unitCost a (y :: ys) := min_le_left _ _
    _ = 1 + levenshtein unitCost a (y :: ys) := rfl

/-- Prepending on the right costs at most one. -/
theorem lev_ins_le (c : Char) (a b : List Char) :
    levenshtein unitCost a (c :: b) ≤ 1 + levenshtein unitCost a b := by
  cases a with
  | nil => rw [lev_nil_left, lev_nil_left]; simp; omega
  | cons x xs =>
    rw [levenshtein_cons_cons]
    calc _ ≤ _ := min_le_right _ _
    _ ≤ unitCost.insert c + levenshtein unitCost (x :: xs) b := min_le_left _ _
    _ = 1 + levenshtein unitCost (x :: xs) b := rfl

/-- A head substitution costs at most one. -/
theorem lev_sub_le (c d : Char) (a b : List Char) :
    levenshtein unitCost (c :: a) (d :: b) ≤ 1 + levenshtein unitCost a b := by
  rw [levenshtein_cons_cons]
  calc _ ≤ _ := min_le_right _ _
  _ ≤ unitCost.substitute c d + levenshtein unitCost a b := min_le_right _ _
  _ ≤ 1 + levenshtein unitCost a b := by
      simp only [unitCost]
      by_cases h : c = d
      · rw [if_pos h]; omega
      · rw [if_neg h]

/-- A shared head is free. -/
theorem lev_keep_le (c : Char) (a b : List Char) :
    levenshtein unitCost (c :: a) (c :: b) ≤ levenshtein unitCost a b := by
  rw [levenshtein_cons_cons]
  calc _ ≤ _ := min_le_right _ _
  _ ≤ unitCost.substitute c c + levenshtein unitCost a b := min_le_right _ _
  _ = levenshtein unitCost a b := by simp [unitCost]

/-- Soundness: any alignment bounds the Levenshtein distance. -/
theorem aligns_le {n : Nat} {a b : List Char} (h : Aligns n a b) :
    levenshtein unitCost a b ≤ n := by
  induction h with
  | nil => rw [lev_nil_left]; simp
  | keep c h ih => exact le_trans (lev_keep_le _ _ _) ih
  | del c h ih => exact le_trans (lev_del_le _ _ _) (by omega)
  | ins c h ih => exact le_trans (lev_ins_le _ _ _) (by omega)
  | sub c d h ih => exact le_trans (lev_sub_le _ _ _ _) (by omega)

/-- Completeness: the Levenshtein distance is realized by an alignment. -/
theorem aligns_exists : ∀ (a b : List Char), Aligns (levenshtein unitCost a b) a b := by
  intro a
  induction a with
  | nil =>
    intro b
    rw [lev_nil_left]
    exact aligns_nil_left b
  | cons x xs iha =>
    intro b
    induction b with
    | nil =>
      rw [lev_nil_right]
      exact aligns_nil_right (x :: xs)
    | cons y ys ihb =>
      rw [levenshtein_cons_cons]
      have hd1 := iha (y :: ys)
      have hd2 := ihb
      have hd3 := iha ys
      set d1 := levenshtein unitCost xs (y :: ys) with hd1e
      set d2 := levenshtein unitCost (x :: xs) ys with hd2e
      set d3 := levenshtein unitCost xs ys with hd3e
      have hsub : unitCost.substitute x y = if x = y then 0 else 1 := rfl
      have hdel : unitCost.delete x = 1 := rfl
      have hins : unitCost.insert y = 1 := rfl
      rw [hsub, hdel, hins]
      by_cases hxy : x = y
      · rw [if_pos hxy]
        have hv : min (1 + d1) (min (1 + d2) (0 + d3)) = 1 + d1 ∨
            min (1 + d1) (min (1 + d2) (0 + d3)) = 1 + d2 ∨
            min (1 + d1) (min (1 + d2) (0 + d3)) = 0 + d3 := by omega
        rcases hv with hv | hv | hv <;> rw [hv]
        · rw [Nat.add_comm]; exact Aligns.del x hd1
        · rw [Nat.add_comm]; exact Aligns.ins y hd2
        · rw [Nat.zero_add, hxy]; exact Aligns.keep y hd3
      · rw [if_neg hxy]
        have hv : min (1 + d1) (min (1 + d2) (1 + d3)) = 1 + d1 ∨
            min (1 + d1) (min (1 + d2) (1 + d3)) = 1 + d2 ∨
            min (1 + d1) (min (1 + d2) (1 + d3)) = 1 + d3 := by omega
        rcases hv with hv | hv | hv <;> rw [hv, Nat.add_comm]
        · exact Aligns.del x hd1
        · exact Aligns.ins y hd2
        · exact Aligns.sub x y hd3

/-- Alignments lift under a common prefix. -/
theorem aligns_append_left {n : Nat} {a b : List Char} (u : List Char)
    (h : Aligns n a b) : Aligns n (u ++ a) (u ++ b) := by
  induction u with
  | nil => exact h
  | cons c cs ih => exact Aligns.keep c ih

/-- A single edit is an alignment of cost 1. -/
theorem editStep_aligns {a b : List Char} (h : EditStep a b) : Aligns 1 a b := by
  cases h with
  | ins u v c => exact aligns_append_left u (Aligns.ins c (aligns_refl v))
  | del u v c => exact aligns_append_left u (Aligns.del c (aligns_refl v))
  | sub u v c d => exact aligns_append_left u (Aligns.sub c d (aligns_refl v))

/-- Composition: alignments of costs `m` and `n` compose to one of cost
at most `m + n` (cancelling operations can make it cheaper). -/
theorem aligns_comp : ∀ {n : Nat} {b c : List Char}, Aligns n b c →
    ∀ {m : Nat} {a : List Char}, Aligns m a b → ∃ k, k ≤ m + n ∧ Aligns k a c := by
  intro n b c h
  induction h with
  | nil =>
    intro m a h1
    exact ⟨m, by omega, h1⟩
  | ins y hbc ih =>
    intro m a h1
    obtain ⟨k, hk, hal⟩ := ih h1
    exact ⟨k + 1, by omega, Aligns.ins y hal⟩
  | keep x hbc ih =>
    rename_i nn b' c'
    intro m
    induction m using Nat.strong_induction_on with
    | _ m innerIH =>
      intro a h1
      cases h1 with
      | keep _ h2 =>
        obtain ⟨k, hk, hal⟩ := ih h2
        exact ⟨k, by omega, Aligns.keep x hal⟩
      | del d h2 =>
        obtain ⟨k, hk, hal⟩ := innerIH _ (by omega) h2
        exact ⟨k + 1, by omega, Aligns.del d hal⟩
      | ins _ h2 =>
        obtain ⟨k, hk, hal⟩ := ih h2
        exact ⟨k + 1, by omega, Aligns.ins x hal⟩
      | sub d _ h2 =>
        obtain ⟨k, hk, hal⟩ := ih h2
        exact ⟨k + 1, by omega, Aligns.sub d x hal⟩
  | del y hbc ih =>
    rename_i nn b' c'
    intro m
    induction m using Nat.strong_induction_on with
    | _ m innerIH =>
      intro a h1
      cases h1 with
      | keep _ h2 =>
        obtain ⟨k, hk, hal⟩ := ih h2
        exact ⟨k + 1, by omega, Aligns.del y hal⟩
      | del d h2 =>
        obtain ⟨k, hk, hal⟩ := innerIH _ (by omega) h2
        exact ⟨k + 1, by omega, Aligns.del d hal⟩
      | ins _ h2 =>
        obtain ⟨k, hk, hal⟩ := ih h2
        exact ⟨k, by omega, hal⟩
      | sub d _ h2 =>
        obtain ⟨k, hk, hal⟩ := ih h2
        exact ⟨k + 1, by omega, Aligns.del d hal⟩
  | sub y z hbc ih =>
    rename_i nn b' c'
    intro m
    induction m using Nat.strong_induction_on with
    | _ m innerIH =>
      intro a h1
      cases h1 with
      | keep _ h2 =>
        obtain ⟨k, hk, hal⟩ := ih h2
        exact ⟨k + 1, by omega, Aligns.sub y z hal⟩
      | del d h2 =>
        obtain ⟨k, hk, hal⟩ := innerIH _ (by omega) h2
        exact ⟨k + 1, by omega, Aligns.del d hal⟩
      | ins _ h2 =>
        obtain ⟨k, hk, hal⟩ := ih h2
        exact ⟨k + 1, by omega, Aligns.ins z hal⟩
      | sub d _ h2 =>
        obtain ⟨k, hk, hal⟩ := ih h2
        exact ⟨k + 1, by omega, Aligns.sub d z hal⟩

/-- Transport a step count along an equality. -/
theorem stepN_cast {m n : Nat} {a b : List Char} (h : StepN m a b) (he : m = n) :
    StepN n a b := he ▸ h

/-- Edit sequences concatenate. -/
theorem stepN_trans {m : Nat} {a b : List Char} (h1 : StepN m a b) :
    ∀ {n : Nat} {c : List Char}, StepN n b c → StepN (m + n) a c := by
  induction h1 with
  | refl a => intro n c h2; exact stepN_cast h2 (by omega)
  | head e h ih => intro n c h2; exact stepN_cast (StepN.head e (ih h2)) (by omega)

/-- A single edit is a length-1 edit sequence. -/
theorem stepN_single {a b : List Char} (h : EditStep a b) : StepN 1 a b :=
  StepN.head h (StepN.refl b)

/-- Edits lift under a common head. -/
theorem editStep_cons {a b : List Char} (c : Char) (h : EditStep a b) :
    EditStep (c :: a) (c :: b) := by
  cases h with
  | ins u v d =>
    have := EditStep.ins (c :: u) v d
    simpa using this
  | del u v d =>
    have := EditStep.del (c :: u) v d
    simpa using this
  | sub u v d e =>
    have := EditStep.sub (c :: u) v d e
    simpa using this

/-- Edit sequences lift under a common head. -/
theorem stepN_cons {n : Nat} {a b : List Char} (c : Char) (h : StepN n a b) :
    StepN n (c :: a) (c :: b) := by
  induction h with
  | refl a => exact StepN.refl (c :: a)
  | head e h ih => exact StepN.head (editStep_cons c e) ih

/-- An alignment of cost `n` yields an `n`-step edit sequence. -/
theorem aligns_to_stepN {n : Nat} {a b : List Char} (h : Aligns n a b) :
    StepN n a b := by
  induction h with
  | nil => exact StepN.refl []
  | keep c h ih => exact stepN_cons c ih
  | del c h ih =>
    rename_i nn aa bb
    refine StepN.head ?_ ih
    have := EditStep.del ([] : List Char) aa c
    simpa using this
  | ins c h ih =>
    rename_i nn aa bb
    refine stepN_cast (stepN_trans ih (stepN_single ?_)) (by omega)
    have := EditStep.ins ([] : List Char) bb c
    simpa using this
  | sub c d h ih =>
    rename_i nn aa bb
    refine stepN_cast (stepN_trans (stepN_cons c ih) (stepN_single ?_)) (by omega)
    have := EditStep.sub ([] : List Char) bb c d
    simpa using this

/-- An `n`-step edit sequence yields an alignment of cost at most `n`. -/
theorem stepN_to_aligns {n : Nat} {a b : List Char} (h : StepN n a b) :
    ∃ k, k ≤ n ∧ Aligns k a b := by
  induction h with
  | refl a => exact ⟨0, by omega, aligns_refl a⟩
  | head e h ih =>
    obtain ⟨k, hk, hal⟩ := ih
    obtain ⟨j, hj, hal2⟩ := aligns_comp hal (editStep_aligns e)
    exact ⟨j, by omega, hal2⟩

/-- The recursive Levenshtein distance is the least number of edits. -/
theorem lev_isLeast (a b : List Char) :
    IsLeast {n : Nat | StepN n a b} (levenshtein unitCost a b) := by
  constructor
  · exact aligns_to_stepN (aligns_exists a b)
  · intro n hn
    obtain ⟨k, hk, hal⟩ := stepN_to_aligns hn
    exact le_trans (aligns_le hal) hk

/-- Edits are invariant under string reversal. -/
theorem editStep_reverse {a b : List Char} (h : EditStep a b) :
    EditStep a.reverse b.reverse := by
  cases h with
  | ins u v c =>
    have := EditStep.ins v.reverse u.reverse c
    simpa [List.reverse_append] using this
  | del u v c =>
    have := EditStep.del v.reverse u.reverse c
    simpa [List.reverse_append] using this
  | sub u v c d =>
    have := EditStep.sub v.reverse u.reverse c d
    simpa [List.reverse_append] using this

/-- Edit sequences are invariant under string reversal. -/
theorem stepN_reverse {n : Nat} {a b : List Char} (h : StepN n a b) :
    StepN n a.reverse b.reverse := by
  induction h with
  | refl a => exact StepN.refl a.reverse
  | head e h ih => exact StepN.head (editStep_reverse e) ih

/-- C2: `levenshteinDistance a b` is the minimum number of
single-character insertions, deletions and substitutions (each of cost
1) needed to transform `a` into `b`. -/
theorem levenshteinDistance_min_edit_steps (a b : List Char) :
    IsLeast {n : Nat | StepN n a b} (levenshteinDistance a b) := by
  rw [levenshteinDistance_eq_lev]
  have h := lev_isLeast a.reverse b.reverse
  constructor
  · have := stepN_reverse h.1
    simpa using this
  · intro n hn
    exact h.2 (stepN_reverse hn)

end GeoQuiz
